import Mathlib

/-!
Verification of the bin-proto binary codec engine.

This development shallowly embeds the runtime codec engine of the
repository: byte streams are `List Nat` (each element one byte), readers
return `Except Err (value × remaining stream)`, writers produce byte
lists (or `Except Err (List Nat)` where the source writer is fallible).
Functions translated from the source keep the source's names
(`read_items`, `read_list_ext`, `calculate_padding`, ...).  The panic in
`read_list_ext` (src/protocol/src/util.rs) is modelled by a dedicated
outcome constructor, distinct from every returned error.  Parts of the
engine whose code is not under src/ (the `hint` module, the primitive
integer codecs, the enum code generator, the middleware pipeline macro)
are modelled from the spec; their doc comments say so.
-/

namespace BinProto

/-- Byte order of multi-byte primitives, from `Settings.byte_order`. -/
inductive ByteOrder
  | be
  | le
deriving DecidableEq, Repr

/-- The error taxonomy of the engine (spec §7; `Error` in the source).
`noProgress` is the model's rendering of the source's unbounded
re-parse loop in `read_list_ext` when an element read consumes nothing:
the real loop would never terminate (the "DoS" FIXME), the model stops
with this marker.  No theorem below relies on it. -/
inductive Err
  | ioEof
  | tryFromInt
  | nonZeroPad
  | unknownDiscriminant (raw : Nat)
  | tagConvert
  | utf8
  | noProgress
deriving DecidableEq, Repr

/-- Little-endian byte decomposition: `w` bytes of `n`, least significant
first.  Building block of the fixed-width integer writers. -/
def leBytes : Nat → Nat → List Nat
  | 0, _ => []
  | w + 1, n => n % 256 :: leBytes w (n / 256)

/-- Recombine little-endian bytes into a number. -/
def combineLE : List Nat → Nat
  | [] => 0
  | b :: bs => b + 256 * combineLE bs

/-- Recombine a byte chunk per the byte order. -/
def combine (bo : ByteOrder) (chunk : List Nat) : Nat :=
  match bo with
  | .le => combineLE chunk
  | .be => combineLE chunk.reverse

/-- Modelled from the spec (§4.1; the primitive integer codecs are not
under src/): write an unsigned integer of `w` bytes in the settings'
byte order. -/
def uWrite (w : Nat) (bo : ByteOrder) (n : Nat) : List Nat :=
  match bo with
  | .le => leBytes w n
  | .be => (leBytes w n).reverse

/-- Read exactly `w` raw bytes; unexpected end of input is an I/O error,
as in the bit reader over an exhausted source. -/
def readN (w : Nat) (bs : List Nat) : Except Err (List Nat × List Nat) :=
  if w ≤ bs.length then .ok (bs.take w, bs.drop w) else .error .ioEof

/-- Modelled from the spec (§4.1): read an unsigned integer of `w` bytes
in the settings' byte order. -/
def uRead (w : Nat) (bo : ByteOrder) (bs : List Nat) :
    Except Err (Nat × List Nat) :=
  match readN w bs with
  | .error e => .error e
  | .ok (chunk, rest) => .ok (combine bo chunk, rest)

/-- One-byte read; a single byte is byte-order independent. -/
def u8Read (bs : List Nat) : Except Err (Nat × List Nat) :=
  uRead 1 .be bs

/-- One-byte write (`u8`'s writer, value taken mod 2^8). -/
def u8WriteE (b : Nat) : Except Err (List Nat) :=
  .ok [b % 256]

/-- Modelled from the spec: `bool` is written as one byte, 1 for true
and 0 for false (the byte observed in the repository's enum tests). -/
def boolWrite (b : Bool) : List Nat :=
  [if b then 1 else 0]

/-- Modelled from the spec: `bool` is read as one byte, nonzero meaning
true. -/
def boolRead (bs : List Nat) : Except Err (Bool × List Nat) :=
  match u8Read bs with
  | .error e => .error e
  | .ok (b, r) => .ok (b != 0, r)

/-! ## util.rs: `read_items`, `write_items`, `read_list_ext`,
`write_list_ext` -/

/-- `read_items` (src/protocol/src/util.rs): read exactly `n` items in
sequence, failing fast on the first element failure. -/
def read_items {α : Type} (g : List Nat → Except Err (α × List Nat)) :
    Nat → List Nat → Except Err (List α × List Nat)
  | 0, bs => .ok ([], bs)
  | n + 1, bs =>
    match g bs with
    | .error e => .error e
    | .ok (x, r) =>
      match read_items g n r with
      | .error e => .error e
      | .ok (xs, r2) => .ok (x :: xs, r2)

/-- `write_items` (src/protocol/src/util.rs): write each element in
order, concatenating the outputs; no length is emitted. -/
def write_items {α : Type} (f : α → Except Err (List Nat)) :
    List α → Except Err (List Nat)
  | [] => .ok []
  | x :: xs =>
    match f x with
    | .error e => .error e
    | .ok b =>
      match write_items f xs with
      | .error e => .error e
      | .ok r => .ok (b ++ r)

/-- Outcome of `read_list_ext`: an ordinary result, a returned error, or
a process abort.  `panicked` models the source's
`panic!("length prefix in bytes does not match actual size")`, which
terminates the process instead of returning. -/
inductive POutcome (α : Type)
  | ok (a : α)
  | err (e : Err)
  | panicked
deriving DecidableEq, Repr

/-- The re-parse loop of `read_list_ext`'s `Bytes` branch: parse items
from the captured buffer until its end.  An element read that hits
unexpected end of input panics (source line 114).  The source loop has
no iteration bound; `fuel` (instantiated with the buffer length) makes
the model total — readers that consume at least one byte per element,
as all real ones do, never exhaust it. -/
def parseBudgetFuel {α : Type} (g : List Nat → Except Err (α × List Nat)) :
    Nat → List Nat → POutcome (List α)
  | _, [] => .ok []
  | 0, _ :: _ => .err .noProgress
  | fuel + 1, b :: bs =>
    match g (b :: bs) with
    | .error .ioEof => .panicked
    | .error e => .err e
    | .ok (x, rest) =>
      match parseBudgetFuel g fuel rest with
      | .ok items => .ok (x :: items)
      | .err e => .err e
      | .panicked => .panicked

/-- The `Bytes`-branch item loop over a captured byte buffer. -/
def parseBudget {α : Type} (g : List Nat → Except Err (α × List Nat))
    (buf : List Nat) : POutcome (List α) :=
  parseBudgetFuel g buf.length buf

/-- The unit of a disjoint length descriptor (`hint::LengthPrefixKind`). -/
inductive LenKind
  | bytes
  | elements
deriving DecidableEq, Repr

/-- A current-field length descriptor (spec §3 `FieldLength`). -/
structure FieldLength where
  kind : LenKind
  length : Nat
deriving DecidableEq, Repr

/-- `read_list_ext` (src/protocol/src/util.rs lines 85-137): with a
`Bytes` descriptor, read that many raw bytes and re-parse items from
them (panicking when an item read runs off the end of the budget); with
an `Elements` descriptor, read that many items; with no descriptor, read
a `ws`-byte count of the configured prefix integer type, then that many
items. -/
def read_list_ext {α : Type} (g : List Nat → Except Err (α × List Nat))
    (ws : Nat) (bo : ByteOrder) (fl : Option FieldLength) (bs : List Nat) :
    POutcome (List α × List Nat) :=
  match fl with
  | some l =>
    match l.kind with
    | .bytes =>
      match readN l.length bs with
      | .error e => .err e
      | .ok (buf, rest) =>
        match parseBudget g buf with
        | .ok items => .ok (items, rest)
        | .err e => .err e
        | .panicked => .panicked
    | .elements =>
      match read_items g l.length bs with
      | .error e => .err e
      | .ok (items, rest) => .ok (items, rest)
  | none =>
    match uRead ws bo bs with
    | .error e => .err e
    | .ok (n, rest) =>
      match read_items g n rest with
      | .error e => .err e
      | .ok (items, r2) => .ok (items, r2)

/-- `write_list_ext` (src/protocol/src/util.rs lines 140-165): when a
length descriptor is present no count is emitted; otherwise the element
count is converted to the `ws`-byte prefix integer type (failing with an
integer-conversion error when it does not fit) and written before the
elements. -/
def write_list_ext {α : Type} (f : α → Except Err (List Nat)) (ws : Nat)
    (bo : ByteOrder) (fl : Option FieldLength) (xs : List α) :
    Except Err (List Nat) :=
  match fl with
  | some _ => write_items f xs
  | none =>
    if xs.length < 256 ^ ws then
      match write_items f xs with
      | .error e => .error e
      | .ok payload => .ok (uWrite ws bo xs.length ++ payload)
    else .error .tryFromInt

/-! ## Hints (spec §3, §4.3; the `hint` module is consumed by util.rs) -/

/-- Modelled from the spec: the `hint::Hints` resolver state (its module
is absent from src/) — a pending bit-width, the known per-field length
descriptors, and the current field index (spec §3 "Hints"). -/
structure Hints where
  fieldWidth : Option Nat := none
  knownFieldLengths : List (Nat × FieldLength) := []
  currentFieldIndex : Nat := 0

/-- Modelled from the spec: the descriptor registered for the field now
being processed, if any. -/
def Hints.current_field_length (h : Hints) : Option FieldLength :=
  (h.knownFieldLengths.find? (fun p => p.1 == h.currentFieldIndex)).map (·.2)

/-- Modelled from the spec: record that field `idx` has a declared
length of `len` units of `kind`. -/
def Hints.set_field_length (h : Hints) (idx len : Nat) (kind : LenKind) :
    Hints :=
  { h with knownFieldLengths := (idx, ⟨kind, len⟩) :: h.knownFieldLengths }

/-- Modelled from the spec: advance the field cursor, clearing the
per-field bit width (spec §4.3 step 4). -/
def Hints.next_field (h : Hints) : Hints :=
  { h with currentFieldIndex := h.currentFieldIndex + 1, fieldWidth := none }

/-! ## Fixed-size arrays (src/bin-proto/src/types/array.rs) -/

/-- `<[T; N]>::read`: exactly `n` elements through `read_items`, no
length field of any kind.  The source then asserts the collected
element count equals `n`. -/
def array_read {α : Type} (g : List Nat → Except Err (α × List Nat))
    (n : Nat) (bs : List Nat) : Except Err (List α × List Nat) :=
  read_items g n bs

/-- `<[T; N]>::write`: the elements through `write_items`, nothing else. -/
def array_write {α : Type} (f : α → Except Err (List Nat)) (xs : List α) :
    Except Err (List Nat) :=
  write_items f xs

/-! ## Alignment decorator (src/bin-proto/src/types/aligned.rs) -/

/-- `calculate_padding` (aligned.rs line 200). -/
def calculate_padding (alignTo unalignedSize : Nat) : Nat :=
  (alignTo - unalignedSize % alignTo) % alignTo

/-- `align_to` (aligned.rs line 188): pad `bytes` with `padByte` up to a
multiple of the alignment. -/
def align_to (alignTo : Nat) (padByte : Nat) (bytes : List Nat) : List Nat :=
  bytes ++ List.replicate (calculate_padding alignTo bytes.length) padByte

/-- `Aligned::write` (aligned.rs lines 111-121): the inner encoding
followed by zero padding to the alignment unit. -/
def aligned_write {α : Type} (f : α → List Nat) (u : Nat) (v : α) :
    List Nat :=
  align_to u 0 (f v)

/-- The padding loop of `Aligned::read` (aligned.rs lines 97-103): read
the computed number of bytes one by one, failing with the non-zero
padding error on the first non-zero byte. -/
def readPadding : Nat → List Nat → Except Err (List Nat)
  | 0, bs => .ok bs
  | _ + 1, [] => .error .ioEof
  | n + 1, b :: bs =>
    if b = 0 then readPadding n bs else .error .nonZeroPad

/-- `Aligned::read` (aligned.rs lines 92-109): read the inner value,
recompute the padding count from its re-encoded size, then consume that
much padding, rejecting non-zero bytes. -/
def aligned_read {α : Type} (g : List Nat → Except Err (α × List Nat))
    (f : α → List Nat) (u : Nat) (bs : List Nat) :
    Except Err (α × List Nat) :=
  match g bs with
  | .error e => .error e
  | .ok (v, r) =>
    match readPadding (calculate_padding u (f v).length) r with
    | .error e => .error e
    | .ok r2 => .ok (v, r2)

/-! ## Maps (src/protocol/src/types/collections/map.rs) -/

/-- `HashMap::insert`/`BTreeMap::insert` semantics on the model's
association list: replace the value when the key exists, append
otherwise. -/
def mapInsert {κ α : Type} [BEq κ] (m : List (κ × α)) (k : κ) (v : α) :
    List (κ × α) :=
  if m.any (fun p => p.1 == k) then
    m.map (fun p => if p.1 == k then (k, v) else p)
  else m ++ [(k, v)]

/-- The pair loop of the map `read_field`: read `n` key/value pairs in
stream order, inserting each into the accumulating map. -/
def read_map_pairs {κ α : Type} [BEq κ]
    (gk : List Nat → Except Err (κ × List Nat))
    (gv : List Nat → Except Err (α × List Nat)) :
    Nat → List Nat → List (κ × α) → Except Err (List (κ × α) × List Nat)
  | 0, bs, m => .ok (m, bs)
  | n + 1, bs, m =>
    match gk bs with
    | .error e => .error e
    | .ok (k, r1) =>
      match gv r1 with
      | .error e => .error e
      | .ok (v, r2) => read_map_pairs gk gv n r2 (mapInsert m k v)

/-- Map `read_field` (map.rs lines 14-29): a leading `SizeType` (u32)
element count, then that many key/value pairs inserted one by one. -/
def read_map {κ α : Type} [BEq κ]
    (gk : List Nat → Except Err (κ × List Nat))
    (gv : List Nat → Except Err (α × List Nat))
    (bo : ByteOrder) (bs : List Nat) :
    Except Err (List (κ × α) × List Nat) :=
  match uRead 4 bo bs with
  | .error e => .error e
  | .ok (n, r) => read_map_pairs gk gv n r []

/-! ## Middleware pipeline (spec §4.7; `define_middleware_pipeline!` and
the middleware traits are not under src/) -/

/-- Modelled from the spec: a middleware stage — a symmetric byte-buffer
transform exposing `encode_data` and `decode_data`. -/
structure Mw where
  encodeData : List Nat → Except Err (List Nat)
  decodeData : List Nat → Except Err (List Nat)

/-- Stage A of the spec's composition property: add 1 to every byte
(wrapping). -/
def addOneMw : Mw where
  encodeData d := .ok (d.map (fun b => (b + 1) % 256))
  decodeData d := .ok (d.map (fun b => (b + 255) % 256))

/-- Rotate a byte's bits left by 1. -/
def rotl1 (b : Nat) : Nat :=
  2 * b % 256 + b % 256 / 128

/-- Rotate a byte's bits right by 1. -/
def rotr1 (b : Nat) : Nat :=
  b % 256 / 2 + b % 2 * 128

/-- Stage B of the spec's composition property: rotate each byte's bits
left by 1. -/
def rotlMw : Mw where
  encodeData d := .ok (d.map rotl1)
  decodeData d := .ok (d.map rotr1)

/-- Modelled from the spec (§4.7): a two-stage pipeline encodes through
its stages in declared order. -/
def pipelineEncode (a b : Mw) (d : List Nat) : Except Err (List Nat) :=
  match a.encodeData d with
  | .error e => .error e
  | .ok d1 => b.encodeData d1

/-- Modelled from the spec (§4.7): on decode "the same declared order
applies decode per-stage". -/
def pipelineDecode (a b : Mw) (d : List Nat) : Except Err (List Nat) :=
  match a.decodeData d with
  | .error e => .error e
  | .ok d1 => b.decodeData d1

/-- The per-stage decodes applied in reverse declared order — the
composition that actually inverts `pipelineEncode`. -/
def pipelineDecodeRev (a b : Mw) (d : List Nat) : Except Err (List Nat) :=
  match b.decodeData d with
  | .error e => .error e
  | .ok d1 => a.decodeData d1

/-! ## Internally tagged unions (spec §4.6; the enum code generator is
not under src/, its expected bytes are fixed by src/tests/src/enums.rs) -/

/-- Modelled from the spec (§4.6): implicit integer discriminants are
sequential starting at 1 — the discriminant table of an `n`-variant
union with no explicit values. -/
def implicitDiscriminants (n : Nat) : List Nat :=
  (List.range n).map (· + 1)

/-- The `BoatKind` union of src/tests/src/enums.rs (integer
discriminant, no explicit values). -/
inductive BoatKind
  | speedboat (warpSpeedEnabled : Bool)
  | dingy (a b : Nat)
  | fart
deriving DecidableEq, Repr

/-- Modelled from the spec (§4.6 write path): write the active variant's
discriminant as the 32-bit default discriminant type, then the variant's
fields in order. -/
def boatKindWrite (bo : ByteOrder) : BoatKind → List Nat
  | .speedboat w => uWrite 4 bo 1 ++ boolWrite w
  | .dingy a b => uWrite 4 bo 2 ++ [a % 256, b % 256]
  | .fart => uWrite 4 bo 3

/-- Modelled from the spec (§4.6 read path): read the 32-bit
discriminant, look it up against the variant table, and read the matched
variant's fields; an unmapped value fails with `unknownDiscriminant`
carrying the raw value, producing no fields. -/
def boatKindRead (bo : ByteOrder) (bs : List Nat) :
    Except Err (BoatKind × List Nat) :=
  match uRead 4 bo bs with
  | .error e => .error e
  | .ok (d, r) =>
    if d = 1 then
      match boolRead r with
      | .error e => .error e
      | .ok (w, r2) => .ok (.speedboat w, r2)
    else if d = 2 then
      match u8Read r with
      | .error e => .error e
      | .ok (a, r2) =>
        match u8Read r2 with
        | .error e => .error e
        | .ok (b, r3) => .ok (.dingy a b, r3)
    else if d = 3 then .ok (.fart, r)
    else .error (.unknownDiscriminant d)

/-! ## The disjoint-length-prefix record (spec §8; derive codegen in
src/protocol-derive/src/codegen/mod.rs) -/

/-- The record `{count: u32, payload: Vec<u8> length-prefixed by count}`
of the spec's disjoint-length property. -/
structure LpRecord where
  count : Nat
  payload : List Nat
deriving DecidableEq, Repr

/-- The derive-generated write pass for `LpRecord`
(write_named_fields + update_hints_after_write in codegen/mod.rs):
write `count` as a plain u32, register it as the byte-length descriptor
of field 1, advance the cursor, then write `payload` through
`write_list_ext`, which sees the descriptor and emits no own prefix. -/
def lpRecordWrite (bo : ByteOrder) (r : LpRecord) : Except Err (List Nat) :=
  let countBytes := uWrite 4 bo r.count
  let hints1 := (({} : Hints).set_field_length 1 r.count .bytes).next_field
  match write_list_ext u8WriteE 4 bo hints1.current_field_length r.payload with
  | .error e => .error e
  | .ok payloadBytes => .ok (countBytes ++ payloadBytes)

/-- The derive-generated read pass for `LpRecord`
(read_named_fields + update_hints_after_read in codegen/mod.rs): read
`count`, register the descriptor for field 1, advance, then read
`payload` through `read_list_ext`'s `Bytes` branch. -/
def lpRecordRead (bo : ByteOrder) (bs : List Nat) :
    POutcome (LpRecord × List Nat) :=
  match uRead 4 bo bs with
  | .error e => .err e
  | .ok (c, r1) =>
    let hints1 := (({} : Hints).set_field_length 1 c .bytes).next_field
    match read_list_ext u8Read 4 bo hints1.current_field_length r1 with
    | .ok (payload, r2) => .ok (⟨c, payload⟩, r2)
    | .err e => .err e
    | .panicked => .panicked

/-! ## A universe of supported value types (spec §4.4; the codec
contract entry points are src/bin-proto/src/protocol.rs) -/

/-- A deep universe of supported value types: fixed-width unsigned
integers, booleans, growable sequences, optional values and range-like
pairs — the value shapes of spec §4.4 whose codecs the model covers. -/
inductive Ty
  | u8T
  | u16T
  | u32T
  | boolT
  | vecT (t : Ty)
  | optT (t : Ty)
  | rangeT (t : Ty)
deriving DecidableEq, Repr

/-- The Lean type of values of each universe type. -/
@[reducible] def Value : Ty → Type
  | .u8T => Nat
  | .u16T => Nat
  | .u32T => Nat
  | .boolT => Bool
  | .vecT t => List (Value t)
  | .optT t => Option (Value t)
  | .rangeT t => Value t × Value t

/-- Type membership: integer values fit their declared width,
recursively. -/
def wfValue : (t : Ty) → Value t → Bool
  | .u8T, v => decide (v < 256)
  | .u16T, v => decide (v < 65536)
  | .u32T, v => decide (v < 4294967296)
  | .boolT, _ => true
  | .vecT t, xs => xs.all (wfValue t)
  | .optT t, o => o.all (wfValue t)
  | .rangeT t, p => wfValue t p.1 && wfValue t p.2

/-- `Protocol::write` over the universe: primitives per §4.1, options as
flag-then-value (types/option.rs), ranges as start-then-end
(types/range.rs), sequences as a u32 count then the elements
(util.rs `write_list` with no hints, the count conversion failing for
oversized sequences). -/
def writeTy : (t : Ty) → ByteOrder → Value t → Except Err (List Nat)
  | .u8T, _, v => .ok [v % 256]
  | .u16T, bo, v => .ok (uWrite 2 bo v)
  | .u32T, bo, v => .ok (uWrite 4 bo v)
  | .boolT, _, b => .ok (boolWrite b)
  | .vecT t, bo, xs =>
    if xs.length < 4294967296 then
      match write_items (writeTy t bo) xs with
      | .error e => .error e
      | .ok payload => .ok (uWrite 4 bo xs.length ++ payload)
    else .error .tryFromInt
  | .optT t, bo, o =>
    match o with
    | none => .ok (boolWrite false)
    | some v =>
      match writeTy t bo v with
      | .error e => .error e
      | .ok b => .ok (boolWrite true ++ b)
  | .rangeT t, bo, p =>
    match writeTy t bo p.1 with
    | .error e => .error e
    | .ok x =>
      match writeTy t bo p.2 with
      | .error e => .error e
      | .ok y => .ok (x ++ y)

/-- `Protocol::read` over the universe, mirroring `writeTy` shape for
shape. -/
def readTy : (t : Ty) → ByteOrder → List Nat → Except Err (Value t × List Nat)
  | .u8T, bo, bs => uRead 1 bo bs
  | .u16T, bo, bs => uRead 2 bo bs
  | .u32T, bo, bs => uRead 4 bo bs
  | .boolT, _, bs => boolRead bs
  | .vecT t, bo, bs =>
    match uRead 4 bo bs with
    | .error e => .error e
    | .ok (n, r) => read_items (readTy t bo) n r
  | .optT t, bo, bs =>
    match boolRead bs with
    | .error e => .error e
    | .ok (flag, r) =>
      if flag then
        match readTy t bo r with
        | .error e => .error e
        | .ok (v, r2) => .ok (some v, r2)
      else .ok (none, r)
  | .rangeT t, bo, bs =>
    match readTy t bo bs with
    | .error e => .error e
    | .ok (a, r) =>
      match readTy t bo r with
      | .error e => .error e
      | .ok (b, r2) => .ok ((a, b), r2)

/-- `Protocol::bytes` (src/bin-proto/src/protocol.rs lines 31-47): write
through a bit writer at the settings' byte order and return the buffer;
the model's writers are already byte aligned. -/
def tyRawBytes (t : Ty) (bo : ByteOrder) (v : Value t) :
    Except Err (List Nat) :=
  writeTy t bo v

/-- `Protocol::from_bytes` (src/bin-proto/src/protocol.rs lines 17-28):
construct a reader over the byte slice at the settings' byte order and
delegate to `read`. -/
def tyFromBytes (t : Ty) (bo : ByteOrder) (bs : List Nat) :
    Except Err (Value t) :=
  match readTy t bo bs with
  | .error e => .error e
  | .ok (v, _) => .ok v

/-! # Theorems -/

/-! ## Facts about the byte-level primitives -/

theorem leBytes_length (w n : Nat) : (leBytes w n).length = w := by
  induction w generalizing n with
  | zero => rfl
  | succ w ih => simp [leBytes, ih]

theorem combineLE_leBytes (w n : Nat) :
    combineLE (leBytes w n) = n % 256 ^ w := by
  induction w generalizing n with
  | zero => simp [leBytes, combineLE, Nat.mod_one]
  | succ w ih =>
    have h1 : n % (256 * 256 ^ w) % 256 = n % 256 :=
      Nat.mod_mod_of_dvd n (dvd_mul_right 256 (256 ^ w))
    have h2 : n % (256 * 256 ^ w) / 256 = n / 256 % 256 ^ w :=
      Nat.mod_mul_right_div_self n 256 (256 ^ w)
    have h3 := Nat.div_add_mod (n % (256 * 256 ^ w)) 256
    have hpow : (256 : Nat) ^ (w + 1) = 256 * 256 ^ w := by ring
    simp only [leBytes, combineLE, ih, hpow]
    omega

theorem readN_append (xs ys : List Nat) :
    readN xs.length (xs ++ ys) = .ok (xs, ys) := by
  simp [readN, List.take_left, List.drop_left]

theorem uRead_uWrite (w : Nat) (bo : ByteOrder) (n : Nat)
    (h : n < 256 ^ w) (rest : List Nat) :
    uRead w bo (uWrite w bo n ++ rest) = .ok (n, rest) := by
  have hlen : (uWrite w bo n).length = w := by
    cases bo <;> simp [uWrite, leBytes_length]
  have hval : combine bo (uWrite w bo n) = n := by
    cases bo <;>
      simp [uWrite, combine, List.reverse_reverse, combineLE_leBytes,
        Nat.mod_eq_of_lt h]
  have := readN_append (uWrite w bo n) rest
  rw [hlen] at this
  simp [uRead, this, hval]

theorem uRead_one_cons (bo : ByteOrder) (b : Nat) (r : List Nat) :
    uRead 1 bo (b :: r) = .ok (b, r) := by
  cases bo <;> simp [uRead, readN, combine, combineLE]

theorem u8Read_cons (b : Nat) (r : List Nat) : u8Read (b :: r) = .ok (b, r) :=
  uRead_one_cons .be b r

/-! ## Facts about the item readers -/

theorem read_items_length {α : Type}
    (g : List Nat → Except Err (α × List Nat)) :
    ∀ (n : Nat) (bs : List Nat) (ys : List α) (rest : List Nat),
      read_items g n bs = .ok (ys, rest) → ys.length = n := by
  intro n
  induction n with
  | zero =>
    intro bs ys rest h
    simp only [read_items] at h
    cases h
    rfl
  | succ n ih =>
    intro bs ys rest h
    simp only [read_items] at h
    cases hg : g bs with
    | error e => simp [hg] at h
    | ok p =>
      obtain ⟨x, r⟩ := p
      simp only [hg] at h
      cases hr : read_items g n r with
      | error e => simp [hr] at h
      | ok q =>
        obtain ⟨xs, r2⟩ := q
        simp only [hr] at h
        cases h
        simp only [List.length_cons, ih r xs rest hr]

theorem read_items_of_write_items {α : Type}
    (f : α → Except Err (List Nat)) (g : List Nat → Except Err (α × List Nat))
    (xs : List α)
    (hx : ∀ x ∈ xs, ∀ b, f x = .ok b → ∀ r, g (b ++ r) = .ok (x, r)) :
    ∀ (bs : List Nat), write_items f xs = .ok bs →
      ∀ (rest : List Nat), read_items g xs.length (bs ++ rest) = .ok (xs, rest) := by
  induction xs with
  | nil =>
    intro bs hw rest
    simp only [write_items] at hw
    cases hw
    simp [read_items]
  | cons x xs ih =>
    intro bs hw rest
    simp only [write_items] at hw
    cases hfx : f x with
    | error e => rw [hfx] at hw; cases hw
    | ok b1 =>
      rw [hfx] at hw
      cases hws : write_items f xs with
      | error e => rw [hws] at hw; cases hw
      | ok b2 =>
        rw [hws] at hw
        cases hw
        have hg : g (b1 ++ (b2 ++ rest)) = .ok (x, b2 ++ rest) :=
          hx x (List.mem_cons_self x xs) b1 hfx (b2 ++ rest)
        have hr : read_items g xs.length (b2 ++ rest) = .ok (xs, rest) :=
          ih (fun y hy => hx y (List.mem_cons_of_mem x hy)) b2 hws rest
        simp only [List.length_cons, read_items, List.append_assoc, hg, hr]

/-- `u8`'s reader consumes exactly one byte, so the `Bytes`-budget
re-parse loop reproduces the captured buffer without ever panicking. -/
theorem parseBudgetFuel_u8 :
    ∀ (buf : List Nat) (fuel : Nat), buf.length ≤ fuel →
      parseBudgetFuel u8Read fuel buf = .ok buf := by
  intro buf
  induction buf with
  | nil => intro fuel _; cases fuel <;> rfl
  | cons b bs ih =>
    intro fuel hf
    cases fuel with
    | zero => simp at hf
    | succ fuel =>
      have hb : bs.length ≤ fuel := by simpa using hf
      simp only [parseBudgetFuel, u8Read_cons, ih fuel hb]

theorem parseBudget_u8 (buf : List Nat) : parseBudget u8Read buf = .ok buf :=
  parseBudgetFuel_u8 buf buf.length (Nat.le_refl _)

theorem write_items_u8 (xs : List Nat) (h : ∀ b ∈ xs, b < 256) :
    write_items u8WriteE xs = .ok xs := by
  induction xs with
  | nil => rfl
  | cons b bs ih =>
    have hb : b % 256 = b :=
      Nat.mod_eq_of_lt (h b (List.mem_cons_self b bs))
    have hrest := ih (fun y hy => h y (List.mem_cons_of_mem b hy))
    simp only [write_items, u8WriteE, hrest, hb, List.singleton_append]

theorem readN_all (bs : List Nat) : readN bs.length bs = .ok (bs, []) := by
  simp [readN]

theorem read_items_u8_short :
    ∀ (n : Nat) (bs : List Nat), bs.length < n →
      read_items u8Read n bs = .error .ioEof := by
  intro n
  induction n with
  | zero => intro bs h; simp at h
  | succ n ih =>
    intro bs h
    cases bs with
    | nil => rfl
    | cons b r =>
      have : r.length < n := by simpa using h
      simp only [read_items, u8Read_cons, ih r this]

theorem read_items_u8_take :
    ∀ (n : Nat) (bs : List Nat), n ≤ bs.length →
      read_items u8Read n bs = .ok (bs.take n, bs.drop n) := by
  intro n
  induction n with
  | zero => intro bs _; simp [read_items]
  | succ n ih =>
    intro bs h
    cases bs with
    | nil => simp at h
    | cons b r =>
      have : n ≤ r.length := by simpa using h
      simp only [read_items, u8Read_cons, ih r this, List.take_succ_cons,
        List.drop_succ_cons]

/-- C1: decoding a growable sequence under a `Bytes`-kind length
descriptor whose byte budget cuts an element short does NOT return a
decode-fault error: `read_list_ext` panics (util.rs line 114), which
terminates the process.  Concretely, a `Vec<u16>` under a one-byte
budget `[0xAA]` makes the inner `u16` read hit unexpected end of input
inside the budget, and the run aborts rather than producing an `err`. -/
theorem thm_bytes_budget_mismatch_aborts :
    read_list_ext (uRead 2 .be) 4 .be (some ⟨.bytes, 1⟩) [170] = .panicked :=
  rfl

/-- C8: with no hints descriptor, `write_list_ext` emits a leading
element count in the configured `ws`-byte prefix integer type (4 bytes
for the default `SizeType = u32`) followed by exactly the elements'
encodings, and `read_list_ext` first reads that count and then exactly
that many elements, recovering the sequence. -/
theorem thm_list_own_count_roundtrip {α : Type}
    (f : α → Except Err (List Nat)) (g : List Nat → Except Err (α × List Nat))
    (ws : Nat) (bo : ByteOrder) (xs : List α) (bs rest : List Nat)
    (hlen : xs.length < 256 ^ ws)
    (hx : ∀ x ∈ xs, ∀ b, f x = .ok b → ∀ r, g (b ++ r) = .ok (x, r))
    (hw : write_items f xs = .ok bs) :
    write_list_ext f ws bo none xs = .ok (uWrite ws bo xs.length ++ bs) ∧
    read_list_ext g ws bo none (uWrite ws bo xs.length ++ (bs ++ rest)) =
      .ok (xs, rest) := by
  constructor
  · simp only [write_list_ext, if_pos hlen, hw]
  · simp only [read_list_ext, uRead_uWrite ws bo xs.length hlen,
      read_items_of_write_items f g xs hx bs hw rest]

/-- C8 witness: `[1, 2, 3]` with the default 32-bit prefix. -/
theorem witness_list_own_count :
    write_list_ext u8WriteE 4 .be none [1, 2, 3] = .ok [0, 0, 0, 3, 1, 2, 3] ∧
    read_list_ext u8Read 4 .be none [0, 0, 0, 3, 1, 2, 3] = .ok ([1, 2, 3], []) := by
  have h := thm_list_own_count_roundtrip u8WriteE u8Read 4 .be [1, 2, 3]
    [1, 2, 3] [] (by decide)
    (by
      intro x hx b hb r
      have hx256 : x % 256 = x := by fin_cases hx <;> rfl
      have hb' : b = [x % 256] := by
        have := hb.symm
        simpa [u8WriteE] using this
      subst hb'
      simpa [hx256] using u8Read_cons x r)
    (write_items_u8 [1, 2, 3] (by decide))
  exact ⟨h.1, h.2⟩

/-- C9: `read_items` returns exactly the requested number of elements
whenever it returns `Ok` (so the source's collected-count assertion in
`<[T; N]>::read` can never fire), a fixed-size array read consumes
exactly `N` elements with no length field of any kind, and it fails with
an I/O error when the source is exhausted before `N` elements. -/
theorem thm_fixed_array_exact_items :
    (∀ (α : Type) (g : List Nat → Except Err (α × List Nat)) (n : Nat)
        (bs : List Nat) (ys : List α) (rest : List Nat),
        array_read g n bs = .ok (ys, rest) → ys.length = n) ∧
    (∀ (n : Nat) (bs : List Nat), bs.length < n →
        array_read u8Read n bs = .error .ioEof) ∧
    (∀ (n : Nat) (bs : List Nat), n ≤ bs.length →
        array_read u8Read n bs = .ok (bs.take n, bs.drop n)) :=
  ⟨fun _ g n bs ys rest h => read_items_length g n bs ys rest h,
   fun n bs h => read_items_u8_short n bs h,
   fun n bs h => read_items_u8_take n bs h⟩

/-- C9 witness: a two-element read returns exactly two elements, a
three-element read from one byte is an I/O error, and an in-bounds read
consumes exactly the requested elements. -/
theorem witness_fixed_array :
    ([(5 : Nat), 6].length = 2) ∧
    array_read u8Read 3 [7] = .error .ioEof ∧
    array_read u8Read 2 [5, 6, 9] = .ok ([5, 6], [9]) :=
  ⟨thm_fixed_array_exact_items.1 Nat u8Read 2 [5, 6] [5, 6] [] rfl,
   thm_fixed_array_exact_items.2.1 3 [7] (by decide),
   thm_fixed_array_exact_items.2.2 2 [5, 6, 9] (by decide)⟩

/-- C4: for the record `{count: u32, payload length-prefixed by count}`,
the descriptor registered by the `count` field makes the sequence codec
emit no leading count of its own: the encoding is the 4 `count` bytes
followed by exactly `len(payload)` payload bytes, and decoding recovers
the payload exactly. -/
theorem thm_disjoint_length_roundtrip (bo : ByteOrder) (r : LpRecord)
    (hc : r.count = r.payload.length) (hcount : r.count < 4294967296)
    (hbytes : ∀ b ∈ r.payload, b < 256) :
    lpRecordWrite bo r = .ok (uWrite 4 bo r.count ++ r.payload) ∧
    lpRecordRead bo (uWrite 4 bo r.count ++ r.payload) = .ok (r, []) := by
  have hfl : ((({} : Hints).set_field_length 1 r.count .bytes).next_field).current_field_length
      = some ⟨.bytes, r.count⟩ := rfl
  constructor
  · simp only [lpRecordWrite, hfl, write_list_ext, write_items_u8 r.payload hbytes]
  · have hu : uRead 4 bo (uWrite 4 bo r.count ++ r.payload) = .ok (r.count, r.payload) :=
      uRead_uWrite 4 bo r.count (by simpa using hcount) r.payload
    have hrn : readN r.count r.payload = .ok (r.payload, []) := by
      rw [hc]; exact readN_all r.payload
    simp only [lpRecordRead, hu, hfl, read_list_ext, hrn, parseBudget_u8]

/-- C4 witness: `{count: 3, payload: [10, 20, 30]}` big-endian. -/
theorem witness_disjoint_length :
    lpRecordWrite .be ⟨3, [10, 20, 30]⟩ = .ok [0, 0, 0, 3, 10, 20, 30] ∧
    lpRecordRead .be [0, 0, 0, 3, 10, 20, 30] = .ok (⟨3, [10, 20, 30]⟩, []) := by
  have h := thm_disjoint_length_roundtrip .be ⟨3, [10, 20, 30]⟩ (by decide)
    (by decide) (by decide)
  exact ⟨h.1, h.2⟩

theorem readPadding_nonzero :
    ∀ (pad rest : List Nat), (∃ b ∈ pad, b ≠ 0) →
      readPadding pad.length (pad ++ rest) = .error .nonZeroPad := by
  intro pad
  induction pad with
  | nil => intro rest h; simp at h
  | cons b bs ih =>
    intro rest h
    by_cases hb : b = 0
    · subst hb
      have hbs : ∃ y ∈ bs, y ≠ 0 := by simpa using h
      simpa [readPadding] using ih rest hbs
    · simp only [List.length_cons, List.cons_append, readPadding, if_neg hb]

/-- C6: the alignment decorator with unit `U` appends exactly
`(U - L % U) % U` zero bytes after an inner encoding of `L` bytes, and
decoding a buffer whose padding region contains any non-zero byte fails
with the non-zero-padding error. -/
theorem thm_aligned_padding {α : Type} (f : α → List Nat)
    (g : List Nat → Except Err (α × List Nat)) (u : Nat) (v : α)
    (hrt : ∀ r, g (f v ++ r) = .ok (v, r)) :
    aligned_write f u v =
      f v ++ List.replicate ((u - (f v).length % u) % u) 0 ∧
    ∀ (pad rest : List Nat),
      pad.length = (u - (f v).length % u) % u →
      (∃ b ∈ pad, b ≠ 0) →
      aligned_read g f u (f v ++ (pad ++ rest)) = .error .nonZeroPad := by
  constructor
  · rfl
  · intro pad rest hlen hnz
    have hp : calculate_padding u (f v).length = pad.length := by
      simp [calculate_padding, hlen]
    simp only [aligned_read, hrt (pad ++ rest), hp,
      readPadding_nonzero pad rest hnz]

/-- C6 witness: a one-byte value aligned to 4 bytes gets 3 zero bytes of
padding; a non-zero byte in the padding region is rejected. -/
theorem witness_aligned_padding :
    aligned_write (fun n : Nat => [n % 256]) 4 7 = [7, 0, 0, 0] ∧
    aligned_read u8Read (fun n : Nat => [n % 256]) 4 [7, 0, 1, 0] =
      .error .nonZeroPad := by
  have h := thm_aligned_padding (fun n : Nat => [n % 256]) u8Read 4 7
    (by intro r; simpa using u8Read_cons 7 r)
  exact ⟨h.1, h.2 [0, 1, 0] [] (by decide) (by decide)⟩

theorem mapInsert_length_le {κ α : Type} [BEq κ] (m : List (κ × α))
    (k : κ) (v : α) : (mapInsert m k v).length ≤ m.length + 1 := by
  unfold mapInsert
  split
  · simp
  · simp

theorem read_map_pairs_length_le {κ α : Type} [BEq κ]
    (gk : List Nat → Except Err (κ × List Nat))
    (gv : List Nat → Except Err (α × List Nat)) :
    ∀ (n : Nat) (bs : List Nat) (m : List (κ × α)) (m' : List (κ × α))
      (rest : List Nat),
      read_map_pairs gk gv n bs m = .ok (m', rest) →
      m'.length ≤ m.length + n := by
  intro n
  induction n with
  | zero =>
    intro bs m m' rest h
    simp only [read_map_pairs] at h
    cases h
    simp
  | succ n ih =>
    intro bs m m' rest h
    simp only [read_map_pairs] at h
    cases hk : gk bs with
    | error e => simp [hk] at h
    | ok pk =>
      obtain ⟨k, r1⟩ := pk
      simp only [hk] at h
      cases hv : gv r1 with
      | error e => simp [hv] at h
      | ok pv =>
        obtain ⟨v, r2⟩ := pv
        simp only [hv] at h
        have := ih r2 (mapInsert m k v) m' rest h
        have hins := mapInsert_length_le m k v
        omega

/-- C10: the map codec reads the leading count, then that many key/value
pairs in stream order, inserting one by one; a duplicate key is not an
error — the later value overwrites the earlier one, the decode still
succeeds, and the decoded map can hold fewer entries than the count
(never more). -/
theorem thm_map_duplicate_keys :
    (∀ (k v1 v2 : Nat) (rest : List Nat),
        read_map u8Read u8Read .be
            (([0, 0, 0, 2] : List Nat) ++ k :: v1 :: k :: v2 :: rest) =
          .ok ([(k, v2)], rest)) ∧
    (∀ (gk : List Nat → Except Err (Nat × List Nat))
        (gv : List Nat → Except Err (Nat × List Nat)) (n : Nat)
        (bs : List Nat) (m' : List (Nat × Nat)) (rest : List Nat),
        read_map_pairs gk gv n bs [] = .ok (m', rest) → m'.length ≤ n) := by
  constructor
  · intro k v1 v2 rest
    have hu : uRead 4 .be (([0, 0, 0, 2] : List Nat) ++ k :: v1 :: k :: v2 :: rest) =
        .ok (2, k :: v1 :: k :: v2 :: rest) :=
      uRead_uWrite 4 .be 2 (by norm_num) (k :: v1 :: k :: v2 :: rest)
    simp only [read_map, hu, read_map_pairs, u8Read_cons, mapInsert]
    simp
  · intro gk gv n bs m' rest h
    simpa using read_map_pairs_length_le gk gv n bs [] m' rest h

/-- C10 witness: count 2 with a duplicated key decodes successfully to a
single entry holding the later value. -/
theorem witness_map_duplicate :
    read_map u8Read u8Read .be [0, 0, 0, 2, 5, 6, 5, 7] = .ok ([(5, 7)], []) ∧
    ([((5 : Nat), (7 : Nat))].length ≤ 2) :=
  ⟨thm_map_duplicate_keys.1 5 6 7 [],
   thm_map_duplicate_keys.2 u8Read u8Read 2 [5, 6, 5, 7] [(5, 7)] [] rfl⟩

/-- C5: an internal-integer-tagged union with no explicit discriminant
values assigns successive variants the discriminants 1, 2, 3, … in
declaration order — never 0 — and the `BoatKind` union with its 32-bit
discriminant encodes `Speedboat{flag:true}` as `[0,0,0,1,1]`,
`Dingy(0xf1,0xed)` as `[0,0,0,2,0xf1,0xed]`, `Fart` as `[0,0,0,3]`, each
decoding back to the original value. -/
theorem thm_implicit_discriminants :
    (∀ (n i : Nat), i < n → (implicitDiscriminants n)[i]? = some (i + 1)) ∧
    (∀ (n d : Nat), d ∈ implicitDiscriminants n → d ≠ 0) ∧
    boatKindWrite .be (.speedboat true) = [0, 0, 0, 1, 1] ∧
    boatKindWrite .be (.dingy 241 237) = [0, 0, 0, 2, 241, 237] ∧
    boatKindWrite .be .fart = [0, 0, 0, 3] ∧
    boatKindRead .be [0, 0, 0, 1, 1] = .ok (.speedboat true, []) ∧
    boatKindRead .be [0, 0, 0, 2, 241, 237] = .ok (.dingy 241 237, []) ∧
    boatKindRead .be [0, 0, 0, 3] = .ok (.fart, []) := by
  refine ⟨?_, ?_, rfl, rfl, rfl, rfl, rfl, rfl⟩
  · intro n i h
    simp [implicitDiscriminants, List.getElem?_map, List.getElem?_range, h]
  · intro n d h
    simp only [implicitDiscriminants, List.mem_map, List.mem_range] at h
    omega

/-- C5 witness: in the three-variant table the first variant gets
discriminant 1, which is not 0. -/
theorem witness_implicit_discriminants :
    (implicitDiscriminants 3)[0]? = some 1 ∧ (1 : Nat) ≠ 0 :=
  ⟨thm_implicit_discriminants.1 3 0 (by decide),
   thm_implicit_discriminants.2.1 3 1 (by decide)⟩

/-- C7: decoding an internally tagged union from a stream whose
discriminant maps to no variant fails with `unknownDiscriminant`
carrying the raw value — the error carries no fields, so no variant is
even partially resolved — and the test vector `[99,99,88,11,13]`
(big-endian discriminant 1667454987) fails that way. -/
theorem thm_unknown_discriminant :
    (∀ (bo : ByteOrder) (bs : List Nat) (d : Nat) (r : List Nat),
        uRead 4 bo bs = .ok (d, r) → d ≠ 1 → d ≠ 2 → d ≠ 3 →
        boatKindRead bo bs = .error (.unknownDiscriminant d)) ∧
    boatKindRead .be [99, 99, 88, 11, 13] =
      .error (.unknownDiscriminant 1667454987) := by
  constructor
  · intro bo bs d r h h1 h2 h3
    simp only [boatKindRead, h, if_neg h1, if_neg h2, if_neg h3]
  · rfl

/-- C7 witness: discriminant 0 maps to no variant. -/
theorem witness_unknown_discriminant :
    boatKindRead .be [0, 0, 0, 0] = .error (.unknownDiscriminant 0) :=
  thm_unknown_discriminant.1 .be [0, 0, 0, 0] 0 [] rfl
    (by decide) (by decide) (by decide)

/-- C3 counterexample: with stage A adding 1 to every byte and stage B
rotating bits left by 1, applying the per-stage decodes in the SAME
declared order as the encodes does not return the original buffer: the
one-byte buffer `[0]` encodes to `[2]` (add 1, then rotate left) and
same-order decode yields `[128]` (subtract 1 to `[1]`, then rotate
right), not `[0]`. -/
theorem cex_middleware_same_order :
    ¬ ((pipelineEncode addOneMw rotlMw [0]).bind
        (pipelineDecode addOneMw rotlMw) = .ok [0]) := by
  intro h
  have h' : (Except.ok [128] : Except Err (List Nat)) = .ok [0] := h
  have := Except.ok.inj h'
  simp at this

theorem roundtrip_byte :
    ∀ b, b < 256 → (rotr1 (rotl1 ((b + 1) % 256)) + 255) % 256 = b := by
  set_option maxRecDepth 4096 in decide

theorem map_roundtrip_byte :
    ∀ (buf : List Nat), (∀ b ∈ buf, b < 256) →
      ((((buf.map (fun b => (b + 1) % 256)).map rotl1).map rotr1).map
        (fun b => (b + 255) % 256)) = buf := by
  intro buf h
  induction buf with
  | nil => rfl
  | cons b bs ih =>
    have hb : b < 256 := h b (List.mem_cons_self b bs)
    have hrest := ih (fun y hy => h y (List.mem_cons_of_mem b hy))
    simp only [List.map_cons, hrest, List.cons.injEq, and_true]
    exact roundtrip_byte b hb

/-- C3 amended: the encode-then-decode identity for the add-1 / rotate-
left-1 pipeline holds when the per-stage decodes are applied in REVERSE
declared order (stage B's decode, then stage A's): for every byte
buffer, encoding through the two stages and decoding in reverse order
returns the original buffer. -/
theorem thm_middleware_reverse_order (buf : List Nat)
    (h : ∀ b ∈ buf, b < 256) :
    (pipelineEncode addOneMw rotlMw buf).bind
      (pipelineDecodeRev addOneMw rotlMw) = .ok buf := by
  show Except.ok
      ((((buf.map (fun b => (b + 1) % 256)).map rotl1).map rotr1).map
        (fun b => (b + 255) % 256)) = .ok buf
  rw [map_roundtrip_byte buf h]

/-- C3 witness: a concrete buffer spanning the byte range round-trips
under reverse-order decode. -/
theorem witness_middleware_reverse_order :
    (pipelineEncode addOneMw rotlMw [0, 1, 127, 128, 255]).bind
      (pipelineDecodeRev addOneMw rotlMw) = .ok [0, 1, 127, 128, 255] :=
  thm_middleware_reverse_order [0, 1, 127, 128, 255] (by decide)

/-- Prefix form of the round-trip: a successful encoding, read back with
anything appended, yields the value and the appendix. -/
theorem readTy_writeTy :
    ∀ (t : Ty) (bo : ByteOrder) (v : Value t) (bs : List Nat),
      wfValue t v = true → writeTy t bo v = .ok bs →
      ∀ (rest : List Nat), readTy t bo (bs ++ rest) = .ok (v, rest) := by
  intro t
  induction t with
  | u8T =>
    intro bo v bs hwf hw rest
    have hv : v % 256 = v := Nat.mod_eq_of_lt (by simpa [wfValue] using hwf)
    simp only [writeTy] at hw
    cases hw
    simpa [readTy, hv] using uRead_one_cons bo (v % 256) rest
  | u16T =>
    intro bo v bs hwf hw rest
    simp only [writeTy] at hw
    cases hw
    have hv : v < 256 ^ 2 := by simpa [wfValue] using hwf
    simpa [readTy] using uRead_uWrite 2 bo v hv rest
  | u32T =>
    intro bo v bs hwf hw rest
    simp only [writeTy] at hw
    cases hw
    have hv : v < 256 ^ 4 := by simpa [wfValue] using hwf
    simpa [readTy] using uRead_uWrite 4 bo v hv rest
  | boolT =>
    intro bo v bs hwf hw rest
    simp only [writeTy] at hw
    cases hw
    cases v <;> simp [readTy, boolRead, boolWrite, u8Read_cons]
  | vecT t ih =>
    intro bo v bs hwf hw rest
    simp only [writeTy] at hw
    split at hw
    case isFalse => cases hw
    case isTrue hlt =>
      cases hwi : write_items (writeTy t bo) v with
      | error e => rw [hwi] at hw; cases hw
      | ok payload =>
        rw [hwi] at hw
        cases hw
        have hlen : v.length < 256 ^ 4 := by norm_num; exact hlt
        have hx : ∀ x ∈ v, ∀ b, writeTy t bo x = .ok b →
            ∀ r, readTy t bo (b ++ r) = .ok (x, r) := by
          intro x hxm b hb r
          have hwx : wfValue t x = true := by
            have := hwf
            simp only [wfValue, List.all_eq_true] at this
            exact this x hxm
          exact ih bo x b hwx hb r
        have hri := read_items_of_write_items (writeTy t bo) (readTy t bo)
          v hx payload hwi rest
        simp only [readTy, List.append_assoc,
          uRead_uWrite 4 bo v.length hlen (payload ++ rest), hri]
  | optT t ih =>
    intro bo v bs hwf hw rest
    cases v with
    | none =>
      simp only [writeTy] at hw
      cases hw
      simp [readTy, boolRead, boolWrite, u8Read_cons]
    | some x =>
      simp only [writeTy] at hw
      cases hwx : writeTy t bo x with
      | error e => rw [hwx] at hw; cases hw
      | ok b =>
        rw [hwx] at hw
        cases hw
        have hwfx : wfValue t x = true := by simpa [wfValue] using hwf
        have hr := ih bo x b hwfx hwx rest
        simp [readTy, boolRead, boolWrite, u8Read_cons, hr]
  | rangeT t ih =>
    intro bo v bs hwf hw rest
    obtain ⟨a, c⟩ := v
    simp only [writeTy] at hw
    cases hwa : writeTy t bo a with
    | error e => rw [hwa] at hw; cases hw
    | ok x =>
      rw [hwa] at hw
      cases hwc : writeTy t bo c with
      | error e => rw [hwc] at hw; cases hw
      | ok y =>
        rw [hwc] at hw
        cases hw
        have hwfa : wfValue t a = true := by
          have := hwf
          simp only [wfValue, Bool.and_eq_true] at this
          exact this.1
        have hwfc : wfValue t c = true := by
          have := hwf
          simp only [wfValue, Bool.and_eq_true] at this
          exact this.2
        have hra := ih bo a x hwfa hwa (y ++ rest)
        have hrc := ih bo c y hwfc hwc rest
        simp only [readTy, List.append_assoc, hra, hrc]

/-- C2: over the universe of supported value types — fixed-width
unsigned integers, booleans, growable sequences, optional values and
range pairs — and under both byte orders, decoding the bytes produced
by a successful encoding yields the encoded value again:
`from_bytes(bytes(v, settings), settings) == v`. -/
theorem thm_roundtrip_all_types (t : Ty) (bo : ByteOrder) (v : Value t)
    (bs : List Nat) (hwf : wfValue t v = true)
    (hw : tyRawBytes t bo v = .ok bs) :
    tyFromBytes t bo bs = .ok v := by
  have h := readTy_writeTy t bo v bs hwf hw []
  rw [List.append_nil] at h
  simp [tyFromBytes, h]

/-- C2 witness: a little-endian `Vec<u16>` value. -/
theorem witness_roundtrip_all_types :
    wfValue (.vecT .u16T) [1, 65535] = true ∧
    tyRawBytes (.vecT .u16T) .le [1, 65535] = .ok [2, 0, 0, 0, 1, 0, 255, 255] ∧
    tyFromBytes (.vecT .u16T) .le [2, 0, 0, 0, 1, 0, 255, 255] = .ok [1, 65535] :=
  ⟨by decide, rfl,
   thm_roundtrip_all_types (.vecT .u16T) .le [1, 65535]
     [2, 0, 0, 0, 1, 0, 255, 255] (by decide) rfl⟩

end BinProto
